import Mathlib

/-!
Shallow embedding of the GDMC procedural-generation scripts
(`clearArea_calc.py` and `tree_house.py`).

The world-editing client is modelled by a `WState`: the voxel world is a
total function from integer coordinates to block-id strings, and the two
heightmaps loaded from the world slice are functions from local column
coordinates to heights.  `editor.placeBlock` updates the world at one
position; every script is embedded as a state transformer that also returns
the list of placement calls it issued, in order.
-/

/-- Integer voxel coordinates (x, y, z), as used by `placeBlock`. -/
abbrev Pos := Int × Int × Int

/-- The state visible to the scripts: the voxel world plus the two
heightmaps of the loaded world slice (indexed by rect-local (x, z)). -/
structure WState where
  world : Pos → String
  hmMBNL : Int × Int → Int
  hmWS : Int × Int → Int

/-- Model of `editor.placeBlock(p, Block(b))`: overwrite the world at `p`. -/
def placeBlock (s : WState) (p : Pos) (b : String) : WState :=
  { s with world := fun q => if q = p then b else s.world q }

/-- Apply a list of placement calls to the state, in order. -/
def applyTrace (s : WState) (t : List (Pos × String)) : WState :=
  t.foldl (fun acc e => placeBlock acc e.1 e.2) s

/-- Boolean test that `pat` is an initial segment of `l`. -/
def listIsPre : List Char → List Char → Bool
  | [], _ => true
  | _ :: _, [] => false
  | c :: cs, d :: ds => c = d && listIsPre cs ds

/-- Boolean test that `pat` occurs contiguously inside `l`. -/
def listHasSub (pat : List Char) : List Char → Bool
  | [] => listIsPre pat []
  | d :: ds => listIsPre pat (d :: ds) || listHasSub pat ds

/-- Model of the Python substring test `pat in hay`. -/
def strContains (hay pat : String) : Bool :=
  listHasSub pat.toList hay.toList

/-- Model of `range(lo, hi)`: the integers `lo, lo+1, ..., hi-1`. -/
def intRange (lo hi : Int) : List Int :=
  (List.range (hi - lo).toNat).map (fun (i : Nat) => lo + (i : Int))

/-- Model of `range(lo, hi, 2)`: every second integer from `lo` below `hi`. -/
def intRangeTwo (lo hi : Int) : List Int :=
  (List.range (((hi - lo) + 1) / 2).toNat).map (fun (i : Nat) => lo + 2 * (i : Int))

theorem mem_intRange {lo hi a : Int} : a ∈ intRange lo hi ↔ lo ≤ a ∧ a < hi := by
  constructor
  · intro h
    obtain ⟨i, hi, hEq⟩ := List.mem_map.mp h
    have hlt := List.mem_range.mp hi
    omega
  · rintro ⟨h1, h2⟩
    exact List.mem_map.mpr ⟨(a - lo).toNat, List.mem_range.mpr (by omega), by omega⟩

theorem nodup_intRange {lo hi : Int} : (intRange lo hi).Nodup := by
  refine List.Nodup.map ?_ (List.nodup_range _)
  intro i j hij
  simp only at hij
  omega

theorem mem_intRangeTwo {lo hi a : Int} (h : a ∈ intRangeTwo lo hi) :
    lo ≤ a ∧ a < hi := by
  obtain ⟨i, hi, hEq⟩ := List.mem_map.mp h
  have hlt := List.mem_range.mp hi
  omega

theorem nodup_intRangeTwo {lo hi : Int} : (intRangeTwo lo hi).Nodup := by
  refine List.Nodup.map ?_ (List.nodup_range _)
  intro i j hij
  simp only at hij
  omega

/-- Boolean form of the boundary test in `clear_area`, line 34:
the block id contains "log", "leaves" or "mushroom". -/
def isBoundaryBlock (id : String) : Bool :=
  strContains id "log" || strContains id "leaves" || strContains id "mushroom"

/-- Guard of the descent loop in `clear_area`, line 34: the block one below
`start` is a log/leaves/mushroom block and `start > 0`. -/
def loopGuard (blockAt : Int → String) (start : Int) : Prop :=
  isBoundaryBlock (blockAt (start - 1)) = true ∧ 0 < start

instance (blockAt : Int → String) (start : Int) : Decidable (loopGuard blockAt start) := by
  unfold loopGuard
  infer_instance

/-- Fuelled form of the descent loop of `clear_area` (lines 34-36): while the
guard holds, decrement `start`, re-reading the block below it. -/
def descendFuel (blockAt : Int → String) : Nat → Int → Int
  | 0, start => start
  | fuel + 1, start =>
    if loopGuard blockAt start then descendFuel blockAt fuel (start - 1) else start

/-- The descent loop of `clear_area`: `start.toNat` fuel always suffices,
because each iteration decrements `start` and the guard needs `0 < start`. -/
def descend (blockAt : Int → String) (start : Int) : Int :=
  descendFuel blockAt start.toNat start

/-- Model of lines 31-36 of `clear_area`: the start depth of column (x, z)
after the boundary descent, reading blocks of that column from state `s`. -/
def colStart (s : WState) (ox oz x z : Int) : Int :=
  descend (fun y => s.world (x, y, z)) (s.hmMBNL (x - ox, z - oz))

/-- Model of line 32 of `clear_area`: the end height of column (x, z), read
from the WORLD_SURFACE heightmap. -/
def colStop (s : WState) (ox oz x z : Int) : Int :=
  s.hmWS (x - ox, z - oz)

/-- Dirt test at the boundary, line 37: the block id contains "dirt". -/
def isDirt (id : String) : Bool :=
  strContains id "dirt"

/-- Placement calls issued for one column (x, z) of `clear_area`
(lines 31-40): the dirt special case, then the y-loop from the descended
start depth up to (excluding) the surface height.  All reads of this column
happen before any of its writes, so they are taken from `s`. -/
def clearColumnTrace (s : WState) (ox oz x z : Int) : List (Pos × String) :=
  let start := colStart s ox oz x z
  let stop := colStop s ox oz x z
  (if isDirt (s.world (x, start - 1, z)) then [(((x, start - 1, z) : Pos), "air")] else [])
    ++ (intRange start stop).map (fun y => (((x, y, z) : Pos), "air"))

/-- The columns of the build rect, in the iteration order of the two nested
loops (x outer, z inner). -/
def columnList (ox oz sx sz : Int) : List (Int × Int) :=
  (intRange ox (ox + sx)).flatMap (fun x =>
    (intRange oz (oz + sz)).map (fun z => (x, z)))

/-- Sequentially process columns: emit the placement calls of each column against
the current state, apply them, and accumulate the full call list. -/
def runColumns (f : WState → Int × Int → List (Pos × String)) :
    List (Int × Int) → WState → List (Pos × String) → WState × List (Pos × String)
  | [], s, acc => (s, acc)
  | c :: rest, s, acc =>
    runColumns f rest (applyTrace s (f s c)) (acc ++ f s c)

/-- Model of `clear_area(heightmap, buildRect, editor, build_area,
world_slice)`: the heightmaps live in the state, and the rect is given by
its offset (ox, oz) and size (sx, sz). Returns the final state and the list
of `placeBlock` calls issued. -/
def clear_area (s : WState) (ox oz sx sz : Int) : WState × List (Pos × String) :=
  runColumns (fun s1 c => clearColumnTrace s1 ox oz c.1 c.2) (columnList ox oz sx sz) s []

/-- Placement calls of one column of `flatten_area` (lines 16-19): the block
at (x, miny, z) is read (and printed), then a grass block is placed there
unconditionally. -/
def flattenColumnTrace (s : WState) (miny x z : Int) : List (Pos × String) :=
  let _block := s.world (x, miny, z)
  [(((x, miny, z) : Pos), "grass_block")]

/-- Model of `flatten_area(heightmap, buildRect, editor, build_area)`
(lines 7-23): `miny` is `build_area.begin[1] - 1`; the computed `max` height
is only printed and otherwise unused. -/
def flatten_area (s : WState) (ox oz sx sz beginY sizeY : Int) :
    WState × List (Pos × String) :=
  let miny := beginY - 1
  let _maxy := sizeY + miny
  runColumns (fun s1 c => flattenColumnTrace s1 miny c.1 c.2) (columnList ox oz sx sz) s []

/-- Platform pass of `build_treehouse` (lines 101-105): an oak_log disc of
radius `platform_radius` at height `platform_height`. -/
def platformTrace (starting_pos : Pos) (platform_height platform_radius : Int) :
    List (Pos × String) :=
  (intRange (-platform_radius) (platform_radius + 1)).flatMap (fun x =>
    (intRange (-platform_radius) (platform_radius + 1)).flatMap (fun z =>
      if x * x + z * z ≤ platform_radius * platform_radius then
        [(starting_pos + ((x, platform_height, z) : Pos), "oak_log")]
      else []))

/-- Wall pass of `build_treehouse` (lines 107-114): `block_type` on the
square perimeter, air in the interior, for `house_height` layers. -/
def wallTrace (starting_pos : Pos) (platform_height platform_radius house_height : Int)
    (block_type : String) : List (Pos × String) :=
  (intRange 0 house_height).flatMap (fun y =>
    (intRange (-platform_radius) (platform_radius + 1)).flatMap (fun x =>
      (intRange (-platform_radius) (platform_radius + 1)).flatMap (fun z =>
        if x = -platform_radius ∨ x = platform_radius ∨
            z = -platform_radius ∨ z = platform_radius then
          [(starting_pos + ((x, platform_height + 1 + y, z) : Pos), block_type)]
        else
          [(starting_pos + ((x, platform_height + 1 + y, z) : Pos), "air")])))

/-- Trunk pass of `build_treehouse` (lines 115-116): an oak_log column of
height `tree_height` at the origin of the build. -/
def trunkTrace (starting_pos : Pos) (tree_height : Int) : List (Pos × String) :=
  (intRange 0 tree_height).map (fun y => (starting_pos + ((0, y, 0) : Pos), "oak_log"))

/-- Window pass of `build_treehouse` (lines 118-122); note the Python
condition parses as `x-test or (z-test and corner-exclusion)`. -/
def windowTrace (starting_pos : Pos) (platform_height platform_radius house_height : Int) :
    List (Pos × String) :=
  (intRange 1 (house_height - 1)).flatMap (fun y =>
    (intRangeTwo (-platform_radius) platform_radius).flatMap (fun x =>
      (intRangeTwo (-platform_radius) platform_radius).flatMap (fun z =>
        if x = -platform_radius ∨ x = platform_radius - 1 ∨
            ((z = -platform_radius ∨ z = platform_radius - 1) ∧
              (x ≠ platform_radius ∨ z ≠ -platform_radius)) then
          [(starting_pos + ((x, platform_height + y, z) : Pos), "glass")]
        else [])))

/-- Roof pass of `build_treehouse` (lines 124-127): a full slab square one
block wider than the walls, at height `platform_height + house_height`. -/
def roofTrace (starting_pos : Pos) (platform_height platform_radius house_height : Int) :
    List (Pos × String) :=
  (intRange (-platform_radius - 1) (platform_radius + 2)).flatMap (fun x =>
    (intRange (-platform_radius - 1) (platform_radius + 2)).map (fun z =>
      (starting_pos + ((x, platform_height + house_height, z) : Pos), "oak_slab")))

/-- Ladder pass of `build_treehouse` (lines 129-132). -/
def ladderTrace (starting_pos : Pos) (platform_height : Int) : List (Pos × String) :=
  (intRange 1 (platform_height + 3)).map (fun y =>
    (starting_pos + ((0, y, -1) : Pos), "ladder"))

/-- Door pass of `build_treehouse` (lines 134-135). -/
def doorTrace (starting_pos : Pos) (platform_height platform_radius : Int) :
    List (Pos × String) :=
  [(starting_pos + ((1, platform_height + 1, -platform_radius) : Pos), "oak_fence_gate")]

/-- The leaf density constant of `build_treehouse`, line 138. -/
def leaf_density : ℚ := 1 / 2

/-- Geometric part of the leaf condition (lines 143-144): on the outer ring
of the widened square, or on the layer above the roof. -/
def leafCond (platform_radius house_height y x z : Int) : Prop :=
  (x = -platform_radius - 1 ∨ x = platform_radius + 1 ∨
    z = -platform_radius - 1 ∨ z = platform_radius + 1) ∨ y = house_height + 1

instance (platform_radius house_height y x z : Int) :
    Decidable (leafCond platform_radius house_height y x z) := by
  unfold leafCond
  infer_instance

/-- The (y, x, z) iteration order of the leaf pass (lines 140-142). -/
def leafVoxels (platform_radius house_height : Int) : List (Int × Int × Int) :=
  (intRange 0 (house_height + 2)).flatMap (fun y =>
    (intRange (-platform_radius - 1) (platform_radius + 2)).flatMap (fun x =>
      (intRange (-platform_radius - 1) (platform_radius + 2)).map (fun z => (y, x, z))))

/-- One step of the leaf pass: when the geometric condition holds, the next
random draw is consumed (Python `and` short-circuits), and a leaf block is
placed when the draw is below `leaf_density`. -/
def leafStep (starting_pos : Pos) (platform_height platform_radius house_height : Int)
    (rand : Nat → ℚ) (acc : Nat × List (Pos × String)) (v : Int × Int × Int) :
    Nat × List (Pos × String) :=
  if leafCond platform_radius house_height v.1 v.2.1 v.2.2 then
    if rand acc.1 < leaf_density then
      (acc.1 + 1,
        acc.2 ++ [(starting_pos + ((v.2.1, platform_height + v.1, v.2.2) : Pos), "spruce_leaves")])
    else (acc.1 + 1, acc.2)
  else acc

/-- Leaf pass of `build_treehouse` (lines 137-145), with the stream of
`random.random()` results modelled by `rand`. -/
def leafTrace (starting_pos : Pos) (platform_height platform_radius house_height : Int)
    (rand : Nat → ℚ) : List (Pos × String) :=
  ((leafVoxels platform_radius house_height).foldl
    (leafStep starting_pos platform_height platform_radius house_height rand) (0, [])).2

/-- The placement calls of the seven non-random passes of `build_treehouse`,
in program order. -/
def fixedPasses (starting_pos : Pos)
    (tree_height platform_height platform_radius house_height : Int)
    (block_type : String) : List (Pos × String) :=
  platformTrace starting_pos platform_height platform_radius
    ++ wallTrace starting_pos platform_height platform_radius house_height block_type
    ++ trunkTrace starting_pos tree_height
    ++ windowTrace starting_pos platform_height platform_radius house_height
    ++ roofTrace starting_pos platform_height platform_radius house_height
    ++ ladderTrace starting_pos platform_height
    ++ doorTrace starting_pos platform_height platform_radius

/-- Model of `build_treehouse(editor, starting_pos, tree_height,
platform_height, platform_radius, house_height, block_type)`: the full
ordered list of `placeBlock` calls it issues. -/
def build_treehouse (starting_pos : Pos)
    (tree_height platform_height platform_radius house_height : Int)
    (block_type : String) (rand : Nat → ℚ) : List (Pos × String) :=
  fixedPasses starting_pos tree_height platform_height platform_radius house_height block_type
    ++ leafTrace starting_pos platform_height platform_radius house_height rand

/-- A stream of random draws that is never below the leaf density. -/
def constRandOne : Nat → ℚ := fun _ => 1

/-- A stream of random draws that is always below the leaf density. -/
def constRandZero : Nat → ℚ := fun _ => 0

theorem descendFuel_zero (b : Int → String) (start : Int) :
    descendFuel b 0 start = start := rfl

theorem descendFuel_succ (b : Int → String) (k : Nat) (start : Int) :
    descendFuel b (k + 1) start =
      if loopGuard b start then descendFuel b k (start - 1) else start := rfl

theorem descend_eq (b : Int → String) (start : Int) :
    descend b start = if loopGuard b start then descend b (start - 1) else start := by
  by_cases h : loopGuard b start
  · have h1 : start.toNat = (start - 1).toNat + 1 := by
      have := h.2
      omega
    rw [if_pos h]
    unfold descend
    rw [h1, descendFuel_succ, if_pos h]
  · rw [if_neg h]
    unfold descend
    cases hn : start.toNat with
    | zero => exact descendFuel_zero b start
    | succ k => rw [descendFuel_succ, if_neg h]

theorem descendFuel_stable (b : Int → String) :
    ∀ (fuel : Nat) (start : Int), start.toNat ≤ fuel →
      descendFuel b fuel start = descend b start := by
  intro fuel
  induction fuel with
  | zero =>
    intro start h
    have h0 : start.toNat = 0 := by omega
    unfold descend
    rw [h0]
  | succ k ih =>
    intro start h
    by_cases hg : loopGuard b start
    · have h2 : (start - 1).toNat ≤ k := by
        have := hg.2
        omega
      rw [descendFuel_succ, if_pos hg, ih _ h2, descend_eq b start, if_pos hg]
    · rw [descendFuel_succ, if_neg hg, descend_eq b start, if_neg hg]

theorem descendFuel_guard_false (b : Int → String) :
    ∀ (fuel : Nat) (start : Int), start.toNat ≤ fuel →
      ¬ loopGuard b (descendFuel b fuel start) := by
  intro fuel
  induction fuel with
  | zero =>
    intro start h hg
    rw [descendFuel_zero] at hg
    have := hg.2
    omega
  | succ k ih =>
    intro start h
    by_cases hg : loopGuard b start
    · have h2 : (start - 1).toNat ≤ k := by
        have := hg.2
        omega
      rw [descendFuel_succ, if_pos hg]
      exact ih _ h2
    · rw [descendFuel_succ, if_neg hg]
      exact hg

theorem descend_guard_false (b : Int → String) (start : Int) :
    ¬ loopGuard b (descend b start) :=
  descendFuel_guard_false b start.toNat start le_rfl

/-- C8: the boundary-descent loop in `clear_area` terminates for every column
and block configuration: after the descent the loop guard no longer holds
(the chain of log/leaves/mushroom blocks ended or `start` reached 0), and
`start.toNat` iterations of fuel always suffice — more fuel changes nothing,
because `start` strictly decreases and the guard requires `start > 0`. -/
theorem clear_area_descent_terminates (b : Int → String) (start : Int) :
    (descend b start ≤ 0 ∨ isBoundaryBlock (b (descend b start - 1)) = false) ∧
      (∀ extra : Nat, descendFuel b (start.toNat + extra) start = descend b start) := by
  constructor
  · have h := descend_guard_false b start
    by_cases h1 : isBoundaryBlock (b (descend b start - 1)) = true
    · left
      by_contra h2
      exact h ⟨h1, by omega⟩
    · right
      simpa using h1
  · intro extra
    exact descendFuel_stable b _ _ (by omega)

theorem applyTrace_cons (s : WState) (e : Pos × String) (t : List (Pos × String)) :
    applyTrace s (e :: t) = applyTrace (placeBlock s e.1 e.2) t := rfl

theorem applyTrace_hmMBNL (t : List (Pos × String)) : ∀ s : WState,
    (applyTrace s t).hmMBNL = s.hmMBNL := by
  induction t with
  | nil => intro s; rfl
  | cons e rest ih =>
    intro s
    rw [applyTrace_cons, ih]
    rfl

theorem applyTrace_hmWS (t : List (Pos × String)) : ∀ s : WState,
    (applyTrace s t).hmWS = s.hmWS := by
  induction t with
  | nil => intro s; rfl
  | cons e rest ih =>
    intro s
    rw [applyTrace_cons, ih]
    rfl

theorem applyTrace_world_notMem (t : List (Pos × String)) : ∀ (s : WState) (q : Pos),
    (∀ e ∈ t, e.1 ≠ q) → (applyTrace s t).world q = s.world q := by
  induction t with
  | nil => intro s q _; rfl
  | cons e rest ih =>
    intro s q h
    have he : e.1 ≠ q := h e (List.mem_cons_self e rest)
    rw [applyTrace_cons, ih _ _ (fun x hx => h x (List.mem_cons_of_mem _ hx))]
    show (if q = e.1 then e.2 else s.world q) = s.world q
    rw [if_neg (fun hq => he hq.symm)]

theorem applyTrace_world_const (t : List (Pos × String)) : ∀ (s : WState) (q : Pos) (b : String),
    (∀ e ∈ t, e.2 = b) → (∃ e ∈ t, e.1 = q) → (applyTrace s t).world q = b := by
  induction t with
  | nil =>
    intro s q b _ hq
    obtain ⟨e, he, _⟩ := hq
    exact absurd he (List.not_mem_nil e)
  | cons e rest ih =>
    intro s q b hb hq
    rw [applyTrace_cons]
    by_cases hmem : ∃ x ∈ rest, x.1 = q
    · exact ih _ _ _ (fun x hx => hb x (List.mem_cons_of_mem _ hx)) hmem
    · obtain ⟨x, hx, hxq⟩ := hq
      rcases List.mem_cons.mp hx with rfl | hxr
      · have hrest : ∀ y ∈ rest, y.1 ≠ q := fun y hy hyq => hmem ⟨y, hy, hyq⟩
        rw [applyTrace_world_notMem _ _ _ hrest]
        show (if q = x.1 then x.2 else s.world q) = b
        rw [if_pos hxq.symm]
        exact hb x (List.mem_cons_self x rest)
      · exact absurd ⟨x, hxr, hxq⟩ hmem

/-- The per-column trace function writes only to its own column. -/
def ColumnOwn (f : WState → Int × Int → List (Pos × String)) : Prop :=
  ∀ s c e, e ∈ f s c → ∃ y : Int, e.1 = ((c.1, y, c.2) : Pos)

/-- The per-column trace function reads only its own column and the
heightmaps. -/
def ColumnRead (f : WState → Int × Int → List (Pos × String)) : Prop :=
  ∀ s1 s2 c, (∀ y : Int, s1.world (c.1, y, c.2) = s2.world (c.1, y, c.2)) →
    s1.hmMBNL = s2.hmMBNL → s1.hmWS = s2.hmWS → f s1 c = f s2 c

theorem runColumns_cons (f : WState → Int × Int → List (Pos × String))
    (c : Int × Int) (rest : List (Int × Int)) (s : WState) (acc : List (Pos × String)) :
    runColumns f (c :: rest) s acc =
      runColumns f rest (applyTrace s (f s c)) (acc ++ f s c) := rfl

theorem runColumns_hmMBNL (f : WState → Int × Int → List (Pos × String))
    (cols : List (Int × Int)) : ∀ (s : WState) (acc : List (Pos × String)),
    (runColumns f cols s acc).1.hmMBNL = s.hmMBNL := by
  induction cols with
  | nil => intro s acc; rfl
  | cons c rest ih =>
    intro s acc
    rw [runColumns_cons, ih, applyTrace_hmMBNL]

theorem runColumns_hmWS (f : WState → Int × Int → List (Pos × String))
    (cols : List (Int × Int)) : ∀ (s : WState) (acc : List (Pos × String)),
    (runColumns f cols s acc).1.hmWS = s.hmWS := by
  induction cols with
  | nil => intro s acc; rfl
  | cons c rest ih =>
    intro s acc
    rw [runColumns_cons, ih, applyTrace_hmWS]

theorem runColumns_world_frame (f : WState → Int × Int → List (Pos × String))
    (hOwn : ColumnOwn f) (cols : List (Int × Int)) :
    ∀ (s : WState) (acc : List (Pos × String)) (x z y : Int), (x, z) ∉ cols →
    (runColumns f cols s acc).1.world (x, y, z) = s.world (x, y, z) := by
  induction cols with
  | nil => intro s acc x z y _; rfl
  | cons c rest ih =>
    intro s acc x z y hx
    have hc : c ≠ (x, z) := fun h => hx (h ▸ List.mem_cons_self c rest)
    rw [runColumns_cons, ih _ _ _ _ _ (fun h => hx (List.mem_cons_of_mem _ h))]
    apply applyTrace_world_notMem
    intro e he heq
    obtain ⟨y1, hy⟩ := hOwn s c e he
    rw [hy] at heq
    have h1 : c.1 = x := congrArg Prod.fst heq
    have h3 : c.2 = z := congrArg (fun p : Pos => p.2.2) heq
    exact hc (Prod.ext_iff.mpr ⟨h1, h3⟩)

theorem runColumns_trace_mem (f : WState → Int × Int → List (Pos × String))
    (hOwn : ColumnOwn f) (cols : List (Int × Int)) :
    ∀ (s : WState) (acc : List (Pos × String)) (e : Pos × String),
    e ∈ (runColumns f cols s acc).2 →
    e ∈ acc ∨ ∃ c ∈ cols, ∃ y : Int, e.1 = ((c.1, y, c.2) : Pos) := by
  induction cols with
  | nil => intro s acc e he; exact Or.inl he
  | cons c rest ih =>
    intro s acc e he
    rw [runColumns_cons] at he
    rcases ih _ _ _ he with hacc | ⟨c1, hc1, hy⟩
    · rcases List.mem_append.mp hacc with h1 | h2
      · exact Or.inl h1
      · exact Or.inr ⟨c, List.mem_cons_self c rest, hOwn s c e h2⟩
    · exact Or.inr ⟨c1, List.mem_cons_of_mem _ hc1, hy⟩

theorem runColumns_append (f : WState → Int × Int → List (Pos × String))
    (l1 l2 : List (Int × Int)) : ∀ (s : WState) (acc : List (Pos × String)),
    runColumns f (l1 ++ l2) s acc =
      runColumns f l2 (runColumns f l1 s acc).1 (runColumns f l1 s acc).2 := by
  induction l1 with
  | nil => intro s acc; rfl
  | cons c rest ih =>
    intro s acc
    rw [List.cons_append, runColumns_cons, ih, runColumns_cons]

theorem mem_nodup_split {α : Type} {a : α} {l : List α} (h : a ∈ l) (hnd : l.Nodup) :
    ∃ l1 l2, l = l1 ++ a :: l2 ∧ a ∉ l1 ∧ a ∉ l2 := by
  obtain ⟨l1, l2, rfl⟩ := List.append_of_mem h
  obtain ⟨hn1, hn2, hdisj⟩ := List.nodup_append.mp hnd
  exact ⟨l1, l2, rfl, fun ha => hdisj ha (List.mem_cons_self a l2),
    (List.nodup_cons.mp hn2).1⟩

theorem mem_columnList {ox oz sx sz x z : Int} :
    (x, z) ∈ columnList ox oz sx sz ↔
      (ox ≤ x ∧ x < ox + sx) ∧ (oz ≤ z ∧ z < oz + sz) := by
  constructor
  · intro h
    obtain ⟨x1, hx1, hmem⟩ := List.mem_flatMap.mp h
    obtain ⟨z1, hz1, hEq⟩ := List.mem_map.mp hmem
    have hx2 : x1 = x := congrArg Prod.fst hEq
    have hz2 : z1 = z := congrArg Prod.snd hEq
    subst hx2
    subst hz2
    exact ⟨mem_intRange.mp hx1, mem_intRange.mp hz1⟩
  · rintro ⟨hx, hz⟩
    exact List.mem_flatMap.mpr ⟨x, mem_intRange.mpr hx,
      List.mem_map.mpr ⟨z, mem_intRange.mpr hz, rfl⟩⟩

theorem nodup_columnList {ox oz sx sz : Int} : (columnList ox oz sx sz).Nodup := by
  refine List.nodup_flatMap.mpr ⟨?_, ?_⟩
  · intro x _
    exact List.Nodup.map (fun z1 z2 h => congrArg Prod.snd h) nodup_intRange
  · refine List.Pairwise.imp ?_ nodup_intRange
    intro x1 x2 hne p hp1 hp2
    obtain ⟨z1, _, rfl⟩ := List.mem_map.mp hp1
    obtain ⟨z2, _, hEq⟩ := List.mem_map.mp hp2
    exact hne (congrArg Prod.fst hEq).symm

theorem runColumns_world_split (f : WState → Int × Int → List (Pos × String))
    (hOwn : ColumnOwn f) (hRead : ColumnRead f) (b : String)
    (hb : ∀ s c e, e ∈ f s c → e.2 = b)
    (l1 l2 : List (Int × Int)) (x z : Int) (h1 : (x, z) ∉ l1) (h2 : (x, z) ∉ l2)
    (s : WState) (acc : List (Pos × String)) (y : Int) :
    (runColumns f (l1 ++ (x, z) :: l2) s acc).1.world (x, y, z) =
      if ∃ e ∈ f s (x, z), e.1 = ((x, y, z) : Pos) then b else s.world (x, y, z) := by
  rw [runColumns_append]
  have hcol : ∀ y1 : Int, (runColumns f l1 s acc).1.world (x, y1, z) = s.world (x, y1, z) :=
    fun y1 => runColumns_world_frame f hOwn l1 s acc x z y1 h1
  have hM : (runColumns f l1 s acc).1.hmMBNL = s.hmMBNL := runColumns_hmMBNL f l1 s acc
  have hW : (runColumns f l1 s acc).1.hmWS = s.hmWS := runColumns_hmWS f l1 s acc
  have hf : f (runColumns f l1 s acc).1 (x, z) = f s (x, z) :=
    hRead _ _ (x, z) hcol hM hW
  rw [runColumns_cons, runColumns_world_frame f hOwn l2 _ _ x z y h2, hf]
  by_cases hmem : ∃ e ∈ f s (x, z), e.1 = ((x, y, z) : Pos)
  · rw [if_pos hmem]
    exact applyTrace_world_const _ _ _ b (fun e he => hb s (x, z) e he) hmem
  · rw [if_neg hmem]
    rw [applyTrace_world_notMem _ _ _ (fun e he heq => hmem ⟨e, he, heq⟩)]
    exact hcol y

theorem clearColumn_own (ox oz : Int) :
    ColumnOwn (fun s c => clearColumnTrace s ox oz c.1 c.2) := by
  intro s c e he
  simp only [clearColumnTrace] at he
  rcases List.mem_append.mp he with h1 | h2
  · by_cases hd : isDirt (s.world (c.1, colStart s ox oz c.1 c.2 - 1, c.2)) = true
    · rw [if_pos hd] at h1
      rw [List.mem_singleton.mp h1]
      exact ⟨colStart s ox oz c.1 c.2 - 1, rfl⟩
    · rw [if_neg hd] at h1
      exact absurd h1 (List.not_mem_nil e)
  · obtain ⟨y, _, hEq⟩ := List.mem_map.mp h2
    rw [← hEq]
    exact ⟨y, rfl⟩

theorem clearColumn_read (ox oz : Int) :
    ColumnRead (fun s c => clearColumnTrace s ox oz c.1 c.2) := by
  intro s1 s2 c hw hM hW
  simp only [clearColumnTrace, colStart, colStop, hw, hM, hW]

theorem clearColumn_air (ox oz : Int) (s : WState) (c : Int × Int) (e : Pos × String)
    (he : e ∈ clearColumnTrace s ox oz c.1 c.2) : e.2 = "air" := by
  simp only [clearColumnTrace] at he
  rcases List.mem_append.mp he with h1 | h2
  · by_cases hd : isDirt (s.world (c.1, colStart s ox oz c.1 c.2 - 1, c.2)) = true
    · rw [if_pos hd] at h1
      rw [List.mem_singleton.mp h1]
    · rw [if_neg hd] at h1
      exact absurd h1 (List.not_mem_nil e)
  · obtain ⟨y, _, hEq⟩ := List.mem_map.mp h2
    rw [← hEq]

theorem clearColumn_target (s : WState) (ox oz x z y : Int) :
    (∃ e ∈ clearColumnTrace s ox oz x z, e.1 = ((x, y, z) : Pos)) ↔
      ((colStart s ox oz x z ≤ y ∧ y < colStop s ox oz x z) ∨
        (y = colStart s ox oz x z - 1 ∧
          isDirt (s.world (x, colStart s ox oz x z - 1, z)) = true)) := by
  constructor
  · rintro ⟨e, he, hEq⟩
    simp only [clearColumnTrace] at he
    rcases List.mem_append.mp he with h1 | h2
    · by_cases hd : isDirt (s.world (x, colStart s ox oz x z - 1, z)) = true
      · rw [if_pos hd] at h1
        rw [List.mem_singleton.mp h1] at hEq
        right
        refine ⟨?_, hd⟩
        have h5 : colStart s ox oz x z - 1 = y := congrArg (fun p : Pos => p.2.1) hEq
        omega
      · rw [if_neg hd] at h1
        exact absurd h1 (List.not_mem_nil e)
    · obtain ⟨y1, hy1, hEq2⟩ := List.mem_map.mp h2
      left
      have hy1R := mem_intRange.mp hy1
      have h5 : y1 = y := by
        rw [← hEq2] at hEq
        exact congrArg (fun p : Pos => p.2.1) hEq
      omega
  · rintro (⟨hge, hlt⟩ | ⟨hy, hdirt⟩)
    · refine ⟨(((x, y, z) : Pos), "air"), ?_, rfl⟩
      simp only [clearColumnTrace]
      exact List.mem_append.mpr (Or.inr
        (List.mem_map.mpr ⟨y, mem_intRange.mpr ⟨hge, hlt⟩, rfl⟩))
    · refine ⟨(((x, colStart s ox oz x z - 1, z) : Pos), "air"), ?_, by rw [hy]⟩
      simp only [clearColumnTrace]
      exact List.mem_append.mpr (Or.inl (by rw [if_pos hdirt]; exact List.mem_singleton.mpr rfl))

/-- Full characterization of the world after `clear_area` on any in-rect
column: air between the descended start and the surface, air at the dirt
boundary block, all else untouched. -/
theorem clear_area_world_eq (s : WState) (ox oz sx sz x z y : Int)
    (hx1 : ox ≤ x) (hx2 : x < ox + sx) (hz1 : oz ≤ z) (hz2 : z < oz + sz) :
    (clear_area s ox oz sx sz).1.world (x, y, z) =
      if colStart s ox oz x z ≤ y ∧ y < colStop s ox oz x z then "air"
      else if y = colStart s ox oz x z - 1 ∧
          isDirt (s.world (x, colStart s ox oz x z - 1, z)) = true then "air"
      else s.world (x, y, z) := by
  obtain ⟨l1, l2, hsplit, h1, h2⟩ :=
    mem_nodup_split (mem_columnList.mpr ⟨⟨hx1, hx2⟩, ⟨hz1, hz2⟩⟩) nodup_columnList
  unfold clear_area
  rw [hsplit, runColumns_world_split _ (clearColumn_own ox oz) (clearColumn_read ox oz)
    "air" (fun s1 c e he => clearColumn_air ox oz s1 c e he) l1 l2 x z h1 h2 s [] y]
  by_cases hA : colStart s ox oz x z ≤ y ∧ y < colStop s ox oz x z
  · rw [if_pos hA, if_pos ((clearColumn_target s ox oz x z y).mpr (Or.inl hA))]
  · rw [if_neg hA]
    by_cases hB : y = colStart s ox oz x z - 1 ∧
        isDirt (s.world (x, colStart s ox oz x z - 1, z)) = true
    · rw [if_pos hB, if_pos ((clearColumn_target s ox oz x z y).mpr (Or.inr hB))]
    · rw [if_neg hB, if_neg (fun hmem =>
        (clearColumn_target s ox oz x z y).mp hmem |>.elim (fun h => hA h) (fun h => hB h))]

/-- C1: for every column (x, z) of the build rect, `clear_area` sets to air
every block at height y with start ≤ y < end, where end is the WORLD_SURFACE
heightmap value of the column and start is its MOTION_BLOCKING_NO_LEAVES
value after the boundary descent; every other height keeps its original
block, except the single dirt boundary block just below start. -/
theorem clear_area_clears_column (s : WState) (ox oz sx sz x z y : Int)
    (hx1 : ox ≤ x) (hx2 : x < ox + sx) (hz1 : oz ≤ z) (hz2 : z < oz + sz) :
    (clear_area s ox oz sx sz).1.world (x, y, z) =
      if colStart s ox oz x z ≤ y ∧ y < colStop s ox oz x z then "air"
      else if y = colStart s ox oz x z - 1 ∧
          isDirt (s.world (x, colStart s ox oz x z - 1, z)) = true then "air"
      else s.world (x, y, z) :=
  clear_area_world_eq s ox oz sx sz x z y hx1 hx2 hz1 hz2

/-- A concrete state for witnesses: bare stone everywhere, heightmaps 3/6. -/
def wsA : WState := ⟨fun _ => "stone", fun _ => 3, fun _ => 6⟩

theorem clear_area_clears_column_witness :
    ((0 : Int) ≤ 0 ∧ (0 : Int) < 0 + 2 ∧ (0 : Int) ≤ 0 ∧ (0 : Int) < 0 + 2) ∧
      (clear_area wsA 0 0 2 2).1.world (0, 4, 0) =
        (if colStart wsA 0 0 0 0 ≤ 4 ∧ (4 : Int) < colStop wsA 0 0 0 0 then "air"
         else if (4 : Int) = colStart wsA 0 0 0 0 - 1 ∧
             isDirt (wsA.world (0, colStart wsA 0 0 0 0 - 1, 0)) = true then "air"
         else wsA.world (0, 4, 0)) :=
  ⟨⟨by decide, by decide, by decide, by decide⟩,
    clear_area_clears_column wsA 0 0 2 2 0 0 4 (by decide) (by decide) (by decide) (by decide)⟩

/-- C2: in `clear_area`, for every column, the start depth satisfies the
descent recurrence (decrement while the block below has an id containing
"log", "leaves" or "mushroom" and start > 0); after the descent, the block
below the start depth is replaced with air exactly when its id contains
"dirt", and is left unchanged otherwise. -/
theorem clear_area_boundary_descent (s : WState) (ox oz sx sz x z st : Int)
    (hx1 : ox ≤ x) (hx2 : x < ox + sx) (hz1 : oz ≤ z) (hz2 : z < oz + sz) :
    (descend (fun y => s.world (x, y, z)) st =
      if loopGuard (fun y => s.world (x, y, z)) st then
        descend (fun y => s.world (x, y, z)) (st - 1)
      else st) ∧
    (loopGuard (fun y => s.world (x, y, z)) st ↔
      ((strContains (s.world (x, st - 1, z)) "log" = true ∨
          strContains (s.world (x, st - 1, z)) "leaves" = true ∨
          strContains (s.world (x, st - 1, z)) "mushroom" = true) ∧ 0 < st)) ∧
    ((clear_area s ox oz sx sz).1.world (x, colStart s ox oz x z - 1, z) =
      if isDirt (s.world (x, colStart s ox oz x z - 1, z)) = true then "air"
      else s.world (x, colStart s ox oz x z - 1, z)) := by
  refine ⟨descend_eq _ st, ?_, ?_⟩
  · simp only [loopGuard, isBoundaryBlock, Bool.or_eq_true, or_assoc]
  · rw [clear_area_world_eq s ox oz sx sz x z (colStart s ox oz x z - 1) hx1 hx2 hz1 hz2]
    rw [if_neg (fun h => absurd h.1 (by omega))]
    by_cases hd : isDirt (s.world (x, colStart s ox oz x z - 1, z)) = true
    · rw [if_pos ⟨rfl, hd⟩, if_pos hd]
    · rw [if_neg (fun h => hd h.2), if_neg hd]

/-- A concrete state for witnesses: a log over dirt over stone, under the
MOTION_BLOCKING_NO_LEAVES height 3. -/
def wsB : WState :=
  ⟨fun p => if p.2.1 = 2 then "oak_log" else if p.2.1 = 1 then "dirt" else "stone",
    fun _ => 3, fun _ => 6⟩

theorem clear_area_boundary_descent_witness :
    ((0 : Int) ≤ 0 ∧ (0 : Int) < 0 + 1 ∧ (0 : Int) ≤ 0 ∧ (0 : Int) < 0 + 1) ∧
      ((descend (fun y => wsB.world (0, y, 0)) 3 =
        if loopGuard (fun y => wsB.world (0, y, 0)) 3 then
          descend (fun y => wsB.world (0, y, 0)) (3 - 1)
        else 3) ∧
      (loopGuard (fun y => wsB.world (0, y, 0)) 3 ↔
        ((strContains (wsB.world (0, 3 - 1, 0)) "log" = true ∨
            strContains (wsB.world (0, 3 - 1, 0)) "leaves" = true ∨
            strContains (wsB.world (0, 3 - 1, 0)) "mushroom" = true) ∧ (0 : Int) < 3)) ∧
      ((clear_area wsB 0 0 1 1).1.world (0, colStart wsB 0 0 0 0 - 1, 0) =
        if isDirt (wsB.world (0, colStart wsB 0 0 0 0 - 1, 0)) = true then "air"
        else wsB.world (0, colStart wsB 0 0 0 0 - 1, 0))) :=
  ⟨⟨by decide, by decide, by decide, by decide⟩,
    clear_area_boundary_descent wsB 0 0 1 1 0 0 3
      (by decide) (by decide) (by decide) (by decide)⟩

/-- C7: the heightmap data is consumed read-only: `clear_area` reads the
MOTION_BLOCKING_NO_LEAVES and WORLD_SURFACE heightmaps but neither script
ever writes to a heightmap array — the heightmaps of the state are unchanged
after `clear_area`, after `flatten_area`, and after applying all placements
of `build_treehouse`. -/
theorem heightmaps_read_only (s : WState) (ox oz sx sz beginY sizeY : Int)
    (sp : Pos) (th ph pr hh : Int) (bt : String) (rand : Nat → ℚ) :
    ((clear_area s ox oz sx sz).1.hmMBNL = s.hmMBNL ∧
      (clear_area s ox oz sx sz).1.hmWS = s.hmWS) ∧
    ((flatten_area s ox oz sx sz beginY sizeY).1.hmMBNL = s.hmMBNL ∧
      (flatten_area s ox oz sx sz beginY sizeY).1.hmWS = s.hmWS) ∧
    ((applyTrace s (build_treehouse sp th ph pr hh bt rand)).hmMBNL = s.hmMBNL ∧
      (applyTrace s (build_treehouse sp th ph pr hh bt rand)).hmWS = s.hmWS) :=
  ⟨⟨runColumns_hmMBNL _ _ _ _, runColumns_hmWS _ _ _ _⟩,
    ⟨runColumns_hmMBNL _ _ _ _, runColumns_hmWS _ _ _ _⟩,
    ⟨applyTrace_hmMBNL _ _, applyTrace_hmWS _ _⟩⟩

theorem runColumns_trace_const (f : WState → Int × Int → List (Pos × String))
    (g : Int × Int → List (Pos × String)) (hfg : ∀ s c, f s c = g c)
    (cols : List (Int × Int)) : ∀ (s : WState) (acc : List (Pos × String)),
    (runColumns f cols s acc).2 = acc ++ cols.flatMap g := by
  induction cols with
  | nil => intro s acc; simp [runColumns]
  | cons c rest ih =>
    intro s acc
    rw [runColumns_cons, ih, hfg, List.flatMap_cons, List.append_assoc]

theorem flatMap_singleton_eq_map {α β : Type} (l : List α) (f : α → β) :
    (l.flatMap (fun a => [f a])) = l.map f := by
  induction l with
  | nil => rfl
  | cons a rest ih => rw [List.flatMap_cons, List.map_cons, ih]; rfl

theorem countP_eq_one_of_nodup_mem {α : Type} [DecidableEq α] {a : α} {l : List α}
    (hnd : l.Nodup) (hmem : a ∈ l) :
    List.countP (fun c => decide (c = a)) l = 1 := by
  induction l with
  | nil => cases hmem
  | cons b rest ih =>
    rw [List.countP_cons]
    rcases List.mem_cons.mp hmem with rfl | hr
    · have hnot : a ∉ rest := (List.nodup_cons.mp hnd).1
      have hz : List.countP (fun c => decide (c = a)) rest = 0 := by
        rw [List.countP_eq_zero]
        intro c hc
        simp only [decide_eq_true_eq]
        exact fun h => hnot (h ▸ hc)
      simp [hz]
    · have hb : b ≠ a := by
        rintro rfl
        exact (List.nodup_cons.mp hnd).1 hr
      rw [ih (List.nodup_cons.mp hnd).2 hr]
      simp [hb]

theorem flattenColumn_own (miny : Int) :
    ColumnOwn (fun s c => flattenColumnTrace s miny c.1 c.2) := by
  intro s c e he
  rw [List.mem_singleton.mp he]
  exact ⟨miny, rfl⟩

theorem flattenColumn_read (miny : Int) :
    ColumnRead (fun s c => flattenColumnTrace s miny c.1 c.2) := by
  intro s1 s2 c _ _ _
  rfl

/-- C9: `flatten_area` places a grass_block at (x, begin_y - 1, z) for every
column of the build rect unconditionally: its emitted trace is exactly one
grass_block placement per column (independent of the blocks it read), so
every in-rect column receives exactly one grass placement at that height,
and ends up holding grass. -/
theorem flatten_area_unconditional_grass (s : WState)
    (ox oz sx sz beginY sizeY x z : Int)
    (hx1 : ox ≤ x) (hx2 : x < ox + sx) (hz1 : oz ≤ z) (hz2 : z < oz + sz) :
    (flatten_area s ox oz sx sz beginY sizeY).2 =
      (columnList ox oz sx sz).map
        (fun c => (((c.1, beginY - 1, c.2) : Pos), "grass_block")) ∧
    List.countP (fun e => decide (e.1 = ((x, beginY - 1, z) : Pos)))
      (flatten_area s ox oz sx sz beginY sizeY).2 = 1 ∧
    (flatten_area s ox oz sx sz beginY sizeY).1.world (x, beginY - 1, z) =
      "grass_block" := by
  have htrace : (flatten_area s ox oz sx sz beginY sizeY).2 =
      (columnList ox oz sx sz).map
        (fun c => (((c.1, beginY - 1, c.2) : Pos), "grass_block")) := by
    show (runColumns (fun s1 c => flattenColumnTrace s1 (beginY - 1) c.1 c.2)
      (columnList ox oz sx sz) s []).2 = _
    rw [runColumns_trace_const (fun s1 c => flattenColumnTrace s1 (beginY - 1) c.1 c.2)
      (fun c => [(((c.1, beginY - 1, c.2) : Pos), "grass_block")]) (fun s1 c => rfl),
      flatMap_singleton_eq_map, List.nil_append]
  refine ⟨htrace, ?_, ?_⟩
  · rw [htrace, List.countP_map]
    have hcnt : List.countP
        ((fun e : Pos × String => decide (e.1 = ((x, beginY - 1, z) : Pos))) ∘
          (fun c : Int × Int => (((c.1, beginY - 1, c.2) : Pos), "grass_block")))
        (columnList ox oz sx sz) =
        List.countP (fun c : Int × Int => decide (c = (x, z))) (columnList ox oz sx sz) := by
      apply List.countP_congr
      intro c _
      simp only [Function.comp_apply, decide_eq_true_eq, Prod.ext_iff]
      tauto
    rw [hcnt]
    exact countP_eq_one_of_nodup_mem nodup_columnList
      (mem_columnList.mpr ⟨⟨hx1, hx2⟩, ⟨hz1, hz2⟩⟩)
  · obtain ⟨l1, l2, hsplit, h1, h2⟩ :=
      mem_nodup_split (mem_columnList.mpr ⟨⟨hx1, hx2⟩, ⟨hz1, hz2⟩⟩) nodup_columnList
    show (runColumns _ (columnList ox oz sx sz) s []).1.world _ = _
    rw [hsplit, runColumns_world_split _ (flattenColumn_own (beginY - 1))
      (flattenColumn_read (beginY - 1)) "grass_block"
      (fun s1 c e he => by rw [List.mem_singleton.mp he]) l1 l2 x z h1 h2 s []
      (beginY - 1)]
    rw [if_pos ⟨(((x, beginY - 1, z) : Pos), "grass_block"),
      List.mem_singleton.mpr rfl, rfl⟩]

theorem flatten_area_unconditional_grass_witness :
    ((0 : Int) ≤ 0 ∧ (0 : Int) < 0 + 2 ∧ (0 : Int) ≤ 1 ∧ (1 : Int) < 0 + 2) ∧
      ((flatten_area wsA 0 0 2 2 5 10).2 =
        (columnList 0 0 2 2).map
          (fun c => (((c.1, 5 - 1, c.2) : Pos), "grass_block")) ∧
      List.countP (fun e => decide (e.1 = (((0 : Int), 5 - 1, 1) : Pos)))
        (flatten_area wsA 0 0 2 2 5 10).2 = 1 ∧
      (flatten_area wsA 0 0 2 2 5 10).1.world (0, 5 - 1, 1) = "grass_block") :=
  ⟨⟨by decide, by decide, by decide, by decide⟩,
    flatten_area_unconditional_grass wsA 0 0 2 2 5 10 0 1
      (by decide) (by decide) (by decide) (by decide)⟩

theorem mem_if_singleton {α : Type} {c : Prop} [Decidable c] {e a : α} :
    (a ∈ if c then [e] else []) ↔ c ∧ a = e := by
  by_cases h : c <;> simp [h]

theorem mem_if_pair {α : Type} {c : Prop} [Decidable c] {e1 e2 a : α} :
    (a ∈ if c then [e1] else [e2]) ↔ (c ∧ a = e1) ∨ (¬c ∧ a = e2) := by
  by_cases h : c <;> simp [h]

theorem posAdd_inj {sp : Pos} {a1 b1 c1 a2 b2 c2 : Int}
    (h : sp + ((a1, b1, c1) : Pos) = sp + ((a2, b2, c2) : Pos)) :
    a1 = a2 ∧ b1 = b2 ∧ c1 = c2 := by
  have h1 := congrArg (fun p : Pos => p.1) h
  have h2 := congrArg (fun p : Pos => p.2.1) h
  have h3 := congrArg (fun p : Pos => p.2.2) h
  simp only [Prod.fst_add, Prod.snd_add] at h1 h2 h3
  exact ⟨by omega, by omega, by omega⟩

/-- C3: the platform pass of `build_treehouse` places an oak_log at
`starting_pos + (x, platform_height, z)` for exactly those (x, z) with
`-platform_radius ≤ x, z ≤ platform_radius` and
`x² + z² ≤ platform_radius²` (a discrete disc), and nothing else. -/
theorem platform_pass_disc (starting_pos : Pos)
    (platform_height platform_radius : Int) (p : Pos) (b : String) :
    (p, b) ∈ platformTrace starting_pos platform_height platform_radius ↔
      ∃ x z : Int, -platform_radius ≤ x ∧ x ≤ platform_radius ∧
        -platform_radius ≤ z ∧ z ≤ platform_radius ∧
        x * x + z * z ≤ platform_radius * platform_radius ∧
        p = starting_pos + ((x, platform_height, z) : Pos) ∧ b = "oak_log" := by
  unfold platformTrace
  constructor
  · intro h
    obtain ⟨x, hx, h2⟩ := List.mem_flatMap.mp h
    obtain ⟨z, hz, h3⟩ := List.mem_flatMap.mp h2
    obtain ⟨hc, hEq⟩ := mem_if_singleton.mp h3
    have hxR := mem_intRange.mp hx
    have hzR := mem_intRange.mp hz
    exact ⟨x, z, by omega, by omega, by omega, by omega, hc,
      congrArg Prod.fst hEq, congrArg Prod.snd hEq⟩
  · rintro ⟨x, z, h1, h2, h3, h4, h5, rfl, rfl⟩
    exact List.mem_flatMap.mpr ⟨x, mem_intRange.mpr ⟨by omega, by omega⟩,
      List.mem_flatMap.mpr ⟨z, mem_intRange.mpr ⟨by omega, by omega⟩,
        mem_if_singleton.mpr ⟨h5, rfl⟩⟩⟩

/-- C4: the wall pass of `build_treehouse` places, for every layer
`0 ≤ y < house_height` and every (x, z) in the square, `block_type` on the
square perimeter and air in the interior — a hollow square shell. -/
theorem wall_pass_hollow_shell (starting_pos : Pos)
    (platform_height platform_radius house_height : Int) (block_type : String)
    (p : Pos) (b : String) :
    (p, b) ∈ wallTrace starting_pos platform_height platform_radius house_height
        block_type ↔
      ∃ y x z : Int, 0 ≤ y ∧ y < house_height ∧
        -platform_radius ≤ x ∧ x ≤ platform_radius ∧
        -platform_radius ≤ z ∧ z ≤ platform_radius ∧
        p = starting_pos + ((x, platform_height + 1 + y, z) : Pos) ∧
        b = (if x = -platform_radius ∨ x = platform_radius ∨
            z = -platform_radius ∨ z = platform_radius then block_type
          else "air") := by
  unfold wallTrace
  constructor
  · intro h
    obtain ⟨y, hy, h2⟩ := List.mem_flatMap.mp h
    obtain ⟨x, hx, h3⟩ := List.mem_flatMap.mp h2
    obtain ⟨z, hz, h4⟩ := List.mem_flatMap.mp h3
    have hyR := mem_intRange.mp hy
    have hxR := mem_intRange.mp hx
    have hzR := mem_intRange.mp hz
    refine ⟨y, x, z, by omega, by omega, by omega, by omega, by omega, by omega, ?_, ?_⟩
    · rcases mem_if_pair.mp h4 with ⟨_, hEq⟩ | ⟨_, hEq⟩ <;>
        exact congrArg Prod.fst hEq
    · rcases mem_if_pair.mp h4 with ⟨hc, hEq⟩ | ⟨hc, hEq⟩
      · rw [if_pos hc]
        exact congrArg Prod.snd hEq
      · rw [if_neg hc]
        exact congrArg Prod.snd hEq
  · rintro ⟨y, x, z, hy1, hy2, hx1, hx2, hz1, hz2, rfl, rfl⟩
    refine List.mem_flatMap.mpr ⟨y, mem_intRange.mpr ⟨by omega, by omega⟩,
      List.mem_flatMap.mpr ⟨x, mem_intRange.mpr ⟨by omega, by omega⟩,
        List.mem_flatMap.mpr ⟨z, mem_intRange.mpr ⟨by omega, by omega⟩, ?_⟩⟩⟩
    by_cases hc : x = -platform_radius ∨ x = platform_radius ∨
        z = -platform_radius ∨ z = platform_radius
    · rw [if_pos hc]
      exact List.mem_singleton.mpr (by rw [if_pos hc])
    · rw [if_neg hc]
      exact List.mem_singleton.mpr (by rw [if_neg hc])

/-- C10: every pass of `build_treehouse` except the final leaf scatter is
deterministic: for any two random streams, the call sequences agree on the
whole prefix issued by the platform, wall, trunk, window, roof, ladder and
door passes; the remainder is exactly the leaf pass, the only part that
reads the random stream. -/
theorem build_treehouse_deterministic_prefix (starting_pos : Pos)
    (tree_height platform_height platform_radius house_height : Int)
    (block_type : String) (r1 r2 : Nat → ℚ) :
    List.take (fixedPasses starting_pos tree_height platform_height platform_radius
        house_height block_type).length
      (build_treehouse starting_pos tree_height platform_height platform_radius
        house_height block_type r1) =
    List.take (fixedPasses starting_pos tree_height platform_height platform_radius
        house_height block_type).length
      (build_treehouse starting_pos tree_height platform_height platform_radius
        house_height block_type r2) ∧
    List.drop (fixedPasses starting_pos tree_height platform_height platform_radius
        house_height block_type).length
      (build_treehouse starting_pos tree_height platform_height platform_radius
        house_height block_type r1) =
      leafTrace starting_pos platform_height platform_radius house_height r1 := by
  unfold build_treehouse
  rw [List.take_left, List.take_left, List.drop_left]
  exact ⟨rfl, rfl⟩

theorem flatMap_sublist {α β : Type} {l : List α} {g h : α → List β}
    (hgh : ∀ a ∈ l, (g a).Sublist (h a)) : (l.flatMap g).Sublist (l.flatMap h) := by
  induction l with
  | nil => simp
  | cons a rest ih =>
    rw [List.flatMap_cons, List.flatMap_cons]
    exact List.Sublist.append (hgh a (List.mem_cons_self a rest))
      (ih (fun b hb => hgh b (List.mem_cons_of_mem _ hb)))

theorem filterMap_sublist_map {α β : Type} {f : α → Option β} {g : α → β}
    (hfg : ∀ a b, f a = some b → b = g a) (l : List α) :
    (l.filterMap f).Sublist (l.map g) := by
  induction l with
  | nil => simp
  | cons a rest ih =>
    rw [List.filterMap_cons, List.map_cons]
    cases hfa : f a with
    | none => exact ih.cons _
    | some b => rw [hfg a b hfa]; exact ih.cons₂ _

theorem nodup_flatMap_map {α : Type} {xs zs : List Int} {f : Int → Int → α}
    (hxs : xs.Nodup) (hzs : zs.Nodup)
    (hinj : ∀ x1 z1 x2 z2, f x1 z1 = f x2 z2 → x1 = x2 ∧ z1 = z2) :
    (xs.flatMap (fun x => zs.map (fun z => f x z))).Nodup := by
  refine List.nodup_flatMap.mpr ⟨?_, ?_⟩
  · intro x _
    exact List.Nodup.map (fun z1 z2 h => (hinj x z1 x z2 h).2) hzs
  · refine List.Pairwise.imp ?_ hxs
    intro x1 x2 hne p hp1 hp2
    obtain ⟨z1, _, rfl⟩ := List.mem_map.mp hp1
    obtain ⟨z2, _, hEq⟩ := List.mem_map.mp hp2
    exact hne ((hinj x2 z2 x1 z1 hEq).1).symm

theorem nodup_grid3 {α : Type} {ys xs zs : List Int} {f : Int → Int → Int → α}
    (hys : ys.Nodup) (hxs : xs.Nodup) (hzs : zs.Nodup)
    (hinj : ∀ y1 x1 z1 y2 x2 z2, f y1 x1 z1 = f y2 x2 z2 →
      y1 = y2 ∧ x1 = x2 ∧ z1 = z2) :
    (ys.flatMap (fun y => xs.flatMap (fun x => zs.map (fun z => f y x z)))).Nodup := by
  refine List.nodup_flatMap.mpr ⟨?_, ?_⟩
  · intro y _
    exact nodup_flatMap_map hxs hzs
      (fun x1 z1 x2 z2 h => ⟨(hinj y x1 z1 y x2 z2 h).2.1, (hinj y x1 z1 y x2 z2 h).2.2⟩)
  · refine List.Pairwise.imp ?_ hys
    intro y1 y2 hne p hp1 hp2
    obtain ⟨x1, _, hm1⟩ := List.mem_flatMap.mp hp1
    obtain ⟨z1, _, rfl⟩ := List.mem_map.mp hm1
    obtain ⟨x2, _, hm2⟩ := List.mem_flatMap.mp hp2
    obtain ⟨z2, _, hEq⟩ := List.mem_map.mp hm2
    exact hne ((hinj y2 x2 z2 y1 x1 z1 hEq).1).symm

theorem platform_targets_nodup (sp : Pos) (ph pr : Int) :
    ((platformTrace sp ph pr).map Prod.fst).Nodup := by
  have key : ((platformTrace sp ph pr).map Prod.fst).Sublist
      ((intRange (-pr) (pr + 1)).flatMap (fun x =>
        (intRange (-pr) (pr + 1)).map (fun z => sp + ((x, ph, z) : Pos)))) := by
    unfold platformTrace
    rw [List.map_flatMap]
    refine flatMap_sublist ?_
    intro x _
    rw [List.map_flatMap]
    have h2 : ∀ z ∈ intRange (-pr) (pr + 1),
        (((if x * x + z * z ≤ pr * pr then
            [(sp + ((x, ph, z) : Pos), "oak_log")] else []) : List (Pos × String)).map
          Prod.fst).Sublist [sp + ((x, ph, z) : Pos)] := by
      intro z _
      by_cases hc : x * x + z * z ≤ pr * pr <;> simp [hc]
    refine (flatMap_sublist h2).trans ?_
    rw [flatMap_singleton_eq_map]
  exact List.Nodup.sublist key (nodup_flatMap_map nodup_intRange nodup_intRange
    (fun x1 z1 x2 z2 h => ⟨(posAdd_inj h).1, (posAdd_inj h).2.2⟩))

theorem wall_targets_nodup (sp : Pos) (ph pr hh : Int) (bt : String) :
    ((wallTrace sp ph pr hh bt).map Prod.fst).Nodup := by
  have key : (wallTrace sp ph pr hh bt).map Prod.fst =
      (intRange 0 hh).flatMap (fun y => (intRange (-pr) (pr + 1)).flatMap (fun x =>
        (intRange (-pr) (pr + 1)).map (fun z => sp + ((x, ph + 1 + y, z) : Pos)))) := by
    unfold wallTrace
    rw [List.map_flatMap]
    congr 1
    funext y
    rw [List.map_flatMap]
    congr 1
    funext x
    rw [List.map_flatMap]
    conv_rhs => rw [← flatMap_singleton_eq_map]
    congr 1
    funext z
    by_cases hc : x = -pr ∨ x = pr ∨ z = -pr ∨ z = pr <;> simp [hc]
  rw [key]
  exact nodup_grid3 nodup_intRange nodup_intRange nodup_intRange
    (fun y1 x1 z1 y2 x2 z2 h => ⟨by have := (posAdd_inj h).2.1; omega,
      (posAdd_inj h).1, (posAdd_inj h).2.2⟩)

theorem trunk_targets_nodup (sp : Pos) (th : Int) :
    ((trunkTrace sp th).map Prod.fst).Nodup := by
  unfold trunkTrace
  rw [List.map_map]
  refine List.Nodup.map ?_ nodup_intRange
  intro y1 y2 h
  simp only [Function.comp_apply] at h
  have := (posAdd_inj h).2.1
  omega

theorem window_targets_nodup (sp : Pos) (ph pr hh : Int) :
    ((windowTrace sp ph pr hh).map Prod.fst).Nodup := by
  have key : ((windowTrace sp ph pr hh).map Prod.fst).Sublist
      ((intRange 1 (hh - 1)).flatMap (fun y => (intRangeTwo (-pr) pr).flatMap (fun x =>
        (intRangeTwo (-pr) pr).map (fun z => sp + ((x, ph + y, z) : Pos))))) := by
    unfold windowTrace
    rw [List.map_flatMap]
    refine flatMap_sublist ?_
    intro y _
    rw [List.map_flatMap]
    refine flatMap_sublist ?_
    intro x _
    rw [List.map_flatMap]
    have h2 : ∀ z ∈ intRangeTwo (-pr) pr,
        (((if x = -pr ∨ x = pr - 1 ∨ ((z = -pr ∨ z = pr - 1) ∧ (x ≠ pr ∨ z ≠ -pr)) then
            [(sp + ((x, ph + y, z) : Pos), "glass")] else []) : List (Pos × String)).map
          Prod.fst).Sublist [sp + ((x, ph + y, z) : Pos)] := by
      intro z _
      by_cases hc : x = -pr ∨ x = pr - 1 ∨ ((z = -pr ∨ z = pr - 1) ∧ (x ≠ pr ∨ z ≠ -pr)) <;>
        simp [hc]
    refine (flatMap_sublist h2).trans ?_
    rw [flatMap_singleton_eq_map]
  exact List.Nodup.sublist key (nodup_grid3 nodup_intRange nodup_intRangeTwo nodup_intRangeTwo
    (fun y1 x1 z1 y2 x2 z2 h => ⟨by have := (posAdd_inj h).2.1; omega,
      (posAdd_inj h).1, (posAdd_inj h).2.2⟩))

theorem roof_targets_nodup (sp : Pos) (ph pr hh : Int) :
    ((roofTrace sp ph pr hh).map Prod.fst).Nodup := by
  have key : (roofTrace sp ph pr hh).map Prod.fst =
      (intRange (-pr - 1) (pr + 2)).flatMap (fun x =>
        (intRange (-pr - 1) (pr + 2)).map (fun z => sp + ((x, ph + hh, z) : Pos))) := by
    unfold roofTrace
    rw [List.map_flatMap]
    congr 1
    funext x
    rw [List.map_map]
    rfl
  rw [key]
  exact nodup_flatMap_map nodup_intRange nodup_intRange
    (fun x1 z1 x2 z2 h => ⟨(posAdd_inj h).1, (posAdd_inj h).2.2⟩)

theorem ladder_targets_nodup (sp : Pos) (ph : Int) :
    ((ladderTrace sp ph).map Prod.fst).Nodup := by
  unfold ladderTrace
  rw [List.map_map]
  refine List.Nodup.map ?_ nodup_intRange
  intro y1 y2 h
  simp only [Function.comp_apply] at h
  have := (posAdd_inj h).2.1
  omega

/-- Model of one evaluation of `random.random() < leaf_density` together
with the block it would place: the k-th draw decides the k-th
geometrically-eligible leaf voxel. -/
def leafDraw (sp : Pos) (ph : Int) (rand : Nat → ℚ) (kv : Nat × (Int × Int × Int)) :
    Option (Pos × String) :=
  if rand kv.1 < leaf_density then
    some (sp + ((kv.2.2.1, ph + kv.2.1, kv.2.2.2) : Pos), "spruce_leaves")
  else none

theorem leafTrace_eq_filterMap (sp : Pos) (ph pr hh : Int) (rand : Nat → ℚ) :
    ∀ (vs : List (Int × Int × Int)) (k : Nat) (acc : List (Pos × String)),
    (vs.foldl (leafStep sp ph pr hh rand) (k, acc)).2 =
      acc ++ (List.enumFrom k
          (vs.filter (fun v => decide (leafCond pr hh v.1 v.2.1 v.2.2)))).filterMap
        (leafDraw sp ph rand) := by
  intro vs
  induction vs with
  | nil =>
    intro k acc
    rw [List.foldl_nil, List.filter_nil]
    exact (List.append_nil acc).symm
  | cons v rest ih =>
    intro k acc
    rw [List.foldl_cons]
    by_cases hc : leafCond pr hh v.1 v.2.1 v.2.2
    · rw [List.filter_cons, if_pos (by simpa using hc), List.enumFrom_cons,
        List.filterMap_cons]
      by_cases hr : rand k < leaf_density
      · rw [show leafStep sp ph pr hh rand (k, acc) v =
            (k + 1, acc ++ [(sp + ((v.2.1, ph + v.1, v.2.2) : Pos), "spruce_leaves")]) from by
          simp [leafStep, hc, hr]]
        rw [ih]
        rw [show leafDraw sp ph rand (k, v) =
            some (sp + ((v.2.1, ph + v.1, v.2.2) : Pos), "spruce_leaves") from by
          simp [leafDraw, hr]]
        rw [List.append_assoc]
        rfl
      · rw [show leafStep sp ph pr hh rand (k, acc) v = (k + 1, acc) from by
          simp [leafStep, hc, hr]]
        rw [ih]
        rw [show leafDraw sp ph rand (k, v) = none from by simp [leafDraw, hr]]
    · rw [show leafStep sp ph pr hh rand (k, acc) v = (k, acc) from by
        simp [leafStep, hc]]
      rw [ih, List.filter_cons, if_neg (by simpa using hc)]

theorem leafTrace_char (sp : Pos) (ph pr hh : Int) (rand : Nat → ℚ) :
    leafTrace sp ph pr hh rand =
      (List.enumFrom 0
          ((leafVoxels pr hh).filter
            (fun v => decide (leafCond pr hh v.1 v.2.1 v.2.2)))).filterMap
        (leafDraw sp ph rand) := by
  unfold leafTrace
  rw [leafTrace_eq_filterMap]
  rfl

theorem leaf_targets_nodup (sp : Pos) (ph pr hh : Int) (rand : Nat → ℚ) :
    ((leafTrace sp ph pr hh rand).map Prod.fst).Nodup := by
  have hbig : (((leafVoxels pr hh).map
      (fun v : Int × Int × Int => sp + ((v.2.1, ph + v.1, v.2.2) : Pos)))).Nodup := by
    have key : (leafVoxels pr hh).map
        (fun v : Int × Int × Int => sp + ((v.2.1, ph + v.1, v.2.2) : Pos)) =
        (intRange 0 (hh + 2)).flatMap (fun y =>
          (intRange (-pr - 1) (pr + 2)).flatMap (fun x =>
            (intRange (-pr - 1) (pr + 2)).map (fun z => sp + ((x, ph + y, z) : Pos)))) := by
      unfold leafVoxels
      rw [List.map_flatMap]
      congr 1
      funext y
      rw [List.map_flatMap]
      congr 1
      funext x
      rw [List.map_map]
      rfl
    rw [key]
    exact nodup_grid3 nodup_intRange nodup_intRange nodup_intRange
      (fun y1 x1 z1 y2 x2 z2 h => ⟨by have := (posAdd_inj h).2.1; omega,
        (posAdd_inj h).1, (posAdd_inj h).2.2⟩)
  rw [leafTrace_char, List.map_filterMap]
  refine List.Nodup.sublist ?_ hbig
  have sub1 : ((List.enumFrom 0
      ((leafVoxels pr hh).filter
        (fun v => decide (leafCond pr hh v.1 v.2.1 v.2.2)))).filterMap
      (fun kv => Option.map Prod.fst (leafDraw sp ph rand kv))).Sublist
      ((List.enumFrom 0
        ((leafVoxels pr hh).filter
          (fun v => decide (leafCond pr hh v.1 v.2.1 v.2.2)))).map
        (fun kv : Nat × (Int × Int × Int) =>
          sp + ((kv.2.2.1, ph + kv.2.1, kv.2.2.2) : Pos))) := by
    refine filterMap_sublist_map ?_ _
    intro kv b hb
    unfold leafDraw at hb
    by_cases hr : rand kv.1 < leaf_density
    · rw [if_pos hr] at hb
      exact (Option.some_inj.mp hb).symm
    · rw [if_neg hr] at hb
      exact absurd hb (by simp)
  refine sub1.trans ?_
  have heq : (List.enumFrom 0
      ((leafVoxels pr hh).filter
        (fun v => decide (leafCond pr hh v.1 v.2.1 v.2.2)))).map
      (fun kv : Nat × (Int × Int × Int) =>
        sp + ((kv.2.2.1, ph + kv.2.1, kv.2.2.2) : Pos)) =
      ((leafVoxels pr hh).filter
        (fun v => decide (leafCond pr hh v.1 v.2.1 v.2.2))).map
      (fun v : Int × Int × Int => sp + ((v.2.1, ph + v.1, v.2.2) : Pos)) := by
    rw [show (fun kv : Nat × (Int × Int × Int) =>
        sp + ((kv.2.2.1, ph + kv.2.1, kv.2.2.2) : Pos)) =
      (fun v : Int × Int × Int => sp + ((v.2.1, ph + v.1, v.2.2) : Pos)) ∘ Prod.snd from rfl]
    rw [← List.map_map, List.enumFrom_map_snd]
  rw [heq]
  exact List.Sublist.map _ (List.filter_sublist _)

theorem door_targets_nodup (sp : Pos) (ph pr : Int) :
    ((doorTrace sp ph pr).map Prod.fst).Nodup := by
  unfold doorTrace
  exact List.nodup_singleton _

theorem leafTrace_empty_of_ge (sp : Pos) (ph pr hh : Int) (rand : Nat → ℚ)
    (hr : ∀ k, ¬ rand k < leaf_density) :
    leafTrace sp ph pr hh rand = [] := by
  unfold leafTrace
  suffices h : ∀ (vs : List (Int × Int × Int)) (k : Nat) (acc : List (Pos × String)),
      (vs.foldl (leafStep sp ph pr hh rand) (k, acc)).2 = acc from
    h (leafVoxels pr hh) 0 []
  intro vs
  induction vs with
  | nil => intro k acc; rfl
  | cons v rest ih =>
    intro k acc
    rw [List.foldl_cons]
    by_cases hc : leafCond pr hh v.1 v.2.1 v.2.2
    · rw [show leafStep sp ph pr hh rand (k, acc) v = (k + 1, acc) from by
        simp [leafStep, hc, hr k]]
      exact ih (k + 1) acc
    · rw [show leafStep sp ph pr hh rand (k, acc) v = (k, acc) from by
        simp [leafStep, hc]]
      exact ih k acc

theorem constRandOne_not_lt (k : Nat) : ¬ constRandOne k < leaf_density := by
  unfold constRandOne leaf_density
  norm_num

/-- C5 is false on the code: in the concrete run
`build_treehouse(editor, buildArea.begin, 15, 10, 3, 4, Block("oak_log"))`
(with a random stream placing no leaves), the voxel at offset (0, 10, 0) is
targeted by two placeBlock calls — once by the platform pass and once by the
trunk pass. -/
theorem tree_house_double_placement :
    List.countP (fun e => decide (e.1 = (((0 : Int), 10, 0) : Pos)))
      (build_treehouse (((0, 0, 0)) : Pos) 15 10 3 4 "oak_log" constRandOne) = 2 := by
  unfold build_treehouse
  rw [List.countP_append, leafTrace_empty_of_ge _ _ _ _ _ constRandOne_not_lt]
  rw [List.countP_nil, Nat.add_zero]
  set_option maxRecDepth 10000 in
  decide

/-- C5 (amended): within each single pass of `build_treehouse`, every voxel
coordinate is targeted by at most one placeBlock call — the targeted
positions of each pass are pairwise distinct.  (Distinct passes can target
the same voxel: e.g. the trunk pass re-targets the platform centre.) -/
theorem tree_house_passes_target_once (starting_pos : Pos)
    (tree_height platform_height platform_radius house_height : Int)
    (block_type : String) (rand : Nat → ℚ) :
    ((platformTrace starting_pos platform_height platform_radius).map Prod.fst).Nodup ∧
    ((wallTrace starting_pos platform_height platform_radius house_height
        block_type).map Prod.fst).Nodup ∧
    ((trunkTrace starting_pos tree_height).map Prod.fst).Nodup ∧
    ((windowTrace starting_pos platform_height platform_radius house_height).map
        Prod.fst).Nodup ∧
    ((roofTrace starting_pos platform_height platform_radius house_height).map
        Prod.fst).Nodup ∧
    ((ladderTrace starting_pos platform_height).map Prod.fst).Nodup ∧
    ((doorTrace starting_pos platform_height platform_radius).map Prod.fst).Nodup ∧
    ((leafTrace starting_pos platform_height platform_radius house_height rand).map
        Prod.fst).Nodup :=
  ⟨platform_targets_nodup _ _ _, wall_targets_nodup _ _ _ _ _,
    trunk_targets_nodup _ _, window_targets_nodup _ _ _ _,
    roof_targets_nodup _ _ _ _, ladder_targets_nodup _ _,
    door_targets_nodup _ _ _, leaf_targets_nodup _ _ _ _ _⟩

theorem platform_offset_bounds {sp : Pos} {ph pr : Int} {e : Pos × String}
    (he : e ∈ platformTrace sp ph pr) :
    ∃ dx dy dz : Int, e.1 = sp + ((dx, dy, dz) : Pos) ∧
      -pr ≤ dx ∧ dx ≤ pr ∧ -pr ≤ dz ∧ dz ≤ pr := by
  obtain ⟨x, hx, h2⟩ := List.mem_flatMap.mp he
  obtain ⟨z, hz, h3⟩ := List.mem_flatMap.mp h2
  obtain ⟨_, hEq⟩ := mem_if_singleton.mp h3
  have hxR := mem_intRange.mp hx
  have hzR := mem_intRange.mp hz
  exact ⟨x, ph, z, congrArg Prod.fst hEq, by omega, by omega, by omega, by omega⟩

theorem wall_offset_bounds {sp : Pos} {ph pr hh : Int} {bt : String} {e : Pos × String}
    (he : e ∈ wallTrace sp ph pr hh bt) :
    ∃ dx dy dz : Int, e.1 = sp + ((dx, dy, dz) : Pos) ∧
      -pr ≤ dx ∧ dx ≤ pr ∧ -pr ≤ dz ∧ dz ≤ pr := by
  obtain ⟨y, _, h2⟩ := List.mem_flatMap.mp he
  obtain ⟨x, hx, h3⟩ := List.mem_flatMap.mp h2
  obtain ⟨z, hz, h4⟩ := List.mem_flatMap.mp h3
  have hxR := mem_intRange.mp hx
  have hzR := mem_intRange.mp hz
  rcases mem_if_pair.mp h4 with ⟨_, hEq⟩ | ⟨_, hEq⟩ <;>
    exact ⟨x, ph + 1 + y, z, congrArg Prod.fst hEq, by omega, by omega, by omega, by omega⟩

theorem trunk_offset_bounds {sp : Pos} {th : Int} {e : Pos × String}
    (he : e ∈ trunkTrace sp th) :
    ∃ dy : Int, e.1 = sp + ((0, dy, 0) : Pos) := by
  obtain ⟨y, _, hEq⟩ := List.mem_map.mp he
  exact ⟨y, (congrArg Prod.fst hEq).symm⟩

theorem window_offset_bounds {sp : Pos} {ph pr hh : Int} {e : Pos × String}
    (he : e ∈ windowTrace sp ph pr hh) :
    ∃ dx dy dz : Int, e.1 = sp + ((dx, dy, dz) : Pos) ∧
      -pr ≤ dx ∧ dx < pr ∧ -pr ≤ dz ∧ dz < pr := by
  obtain ⟨y, _, h2⟩ := List.mem_flatMap.mp he
  obtain ⟨x, hx, h3⟩ := List.mem_flatMap.mp h2
  obtain ⟨z, hz, h4⟩ := List.mem_flatMap.mp h3
  obtain ⟨_, hEq⟩ := mem_if_singleton.mp h4
  have hxR := mem_intRangeTwo hx
  have hzR := mem_intRangeTwo hz
  exact ⟨x, ph + y, z, congrArg Prod.fst hEq, by omega, by omega, by omega, by omega⟩

theorem roof_offset_bounds {sp : Pos} {ph pr hh : Int} {e : Pos × String}
    (he : e ∈ roofTrace sp ph pr hh) :
    ∃ dx dy dz : Int, e.1 = sp + ((dx, dy, dz) : Pos) ∧
      -pr - 1 ≤ dx ∧ dx ≤ pr + 1 ∧ -pr - 1 ≤ dz ∧ dz ≤ pr + 1 := by
  obtain ⟨x, hx, h2⟩ := List.mem_flatMap.mp he
  obtain ⟨z, hz, hEq⟩ := List.mem_map.mp h2
  have hxR := mem_intRange.mp hx
  have hzR := mem_intRange.mp hz
  exact ⟨x, ph + hh, z, (congrArg Prod.fst hEq).symm, by omega, by omega, by omega, by omega⟩

theorem ladder_offset_bounds {sp : Pos} {ph : Int} {e : Pos × String}
    (he : e ∈ ladderTrace sp ph) :
    ∃ dy : Int, e.1 = sp + ((0, dy, -1) : Pos) := by
  obtain ⟨y, _, hEq⟩ := List.mem_map.mp he
  exact ⟨y, (congrArg Prod.fst hEq).symm⟩

theorem door_offset_bounds {sp : Pos} {ph pr : Int} {e : Pos × String}
    (he : e ∈ doorTrace sp ph pr) :
    e.1 = sp + ((1, ph + 1, -pr) : Pos) :=
  congrArg Prod.fst (List.mem_singleton.mp he)

theorem leafVoxels_bounds {pr hh : Int} {v : Int × Int × Int}
    (hv : v ∈ leafVoxels pr hh) :
    -pr - 1 ≤ v.2.1 ∧ v.2.1 ≤ pr + 1 ∧ -pr - 1 ≤ v.2.2 ∧ v.2.2 ≤ pr + 1 := by
  obtain ⟨y, _, h2⟩ := List.mem_flatMap.mp hv
  obtain ⟨x, hx, h3⟩ := List.mem_flatMap.mp h2
  obtain ⟨z, hz, hEq⟩ := List.mem_map.mp h3
  have hxR := mem_intRange.mp hx
  have hzR := mem_intRange.mp hz
  have hx2 : x = v.2.1 := congrArg (fun t : Int × Int × Int => t.2.1) hEq
  have hz2 : z = v.2.2 := congrArg (fun t : Int × Int × Int => t.2.2) hEq
  exact ⟨by omega, by omega, by omega, by omega⟩

theorem leaf_offset_bounds {sp : Pos} {ph pr hh : Int} {rand : Nat → ℚ}
    {e : Pos × String} (he : e ∈ leafTrace sp ph pr hh rand) :
    ∃ dx dy dz : Int, e.1 = sp + ((dx, dy, dz) : Pos) ∧
      -pr - 1 ≤ dx ∧ dx ≤ pr + 1 ∧ -pr - 1 ≤ dz ∧ dz ≤ pr + 1 := by
  rw [leafTrace_char] at he
  obtain ⟨kv, hkv, hdraw⟩ := List.mem_filterMap.mp he
  have hv : kv.2 ∈ (leafVoxels pr hh).filter
      (fun v => decide (leafCond pr hh v.1 v.2.1 v.2.2)) := by
    have := List.mem_map_of_mem Prod.snd hkv
    rwa [List.enumFrom_map_snd] at this
  have hvb := leafVoxels_bounds (List.mem_of_mem_filter hv)
  unfold leafDraw at hdraw
  by_cases hr : rand kv.1 < leaf_density
  · rw [if_pos hr] at hdraw
    have hEq := (Option.some_inj.mp hdraw).symm
    exact ⟨kv.2.2.1, ph + kv.2.1, kv.2.2.2, congrArg Prod.fst hEq,
      hvb.1, hvb.2.1, hvb.2.2.1, hvb.2.2.2⟩
  · rw [if_neg hr] at hdraw
    exact absurd hdraw (by simp)

theorem build_treehouse_offsets (sp : Pos) (th ph pr hh : Int) (bt : String)
    (rand : Nat → ℚ) (hpr : 0 ≤ pr) (e : Pos × String)
    (he : e ∈ build_treehouse sp th ph pr hh bt rand) :
    ∃ dx dy dz : Int, e.1 = sp + ((dx, dy, dz) : Pos) ∧
      -(pr + 1) ≤ dx ∧ dx ≤ pr + 1 ∧ -(pr + 1) ≤ dz ∧ dz ≤ pr + 1 := by
  unfold build_treehouse fixedPasses at he
  rcases List.mem_append.mp he with h7 | hleaf
  · rcases List.mem_append.mp h7 with h6 | hdoor
    · rcases List.mem_append.mp h6 with h5 | hladder
      · rcases List.mem_append.mp h5 with h4 | hroof
        · rcases List.mem_append.mp h4 with h3 | hwindow
          · rcases List.mem_append.mp h3 with h2 | htrunk
            · rcases List.mem_append.mp h2 with hplatform | hwall
              · obtain ⟨dx, dy, dz, hEq, hb⟩ := platform_offset_bounds hplatform
                exact ⟨dx, dy, dz, hEq, by omega, by omega, by omega, by omega⟩
              · obtain ⟨dx, dy, dz, hEq, hb⟩ := wall_offset_bounds hwall
                exact ⟨dx, dy, dz, hEq, by omega, by omega, by omega, by omega⟩
            · obtain ⟨dy, hEq⟩ := trunk_offset_bounds htrunk
              exact ⟨0, dy, 0, hEq, by omega, by omega, by omega, by omega⟩
          · obtain ⟨dx, dy, dz, hEq, hb⟩ := window_offset_bounds hwindow
            exact ⟨dx, dy, dz, hEq, by omega, by omega, by omega, by omega⟩
        · obtain ⟨dx, dy, dz, hEq, hb⟩ := roof_offset_bounds hroof
          exact ⟨dx, dy, dz, hEq, by omega, by omega, by omega, by omega⟩
      · obtain ⟨dy, hEq⟩ := ladder_offset_bounds hladder
        exact ⟨0, dy, -1, hEq, by omega, by omega, by omega, by omega⟩
    · have hEq := door_offset_bounds hdoor
      exact ⟨1, ph + 1, -pr, hEq, by omega, by omega, by omega, by omega⟩
  · obtain ⟨dx, dy, dz, hEq, hb⟩ := leaf_offset_bounds hleaf
    exact ⟨dx, dy, dz, hEq, by omega, by omega, by omega, by omega⟩

/-- C6 is false on the code: with `starting_pos = buildArea.begin` at
(0, 0, 0), the roof pass places an oak_slab at x = -4, z = -4, which lies
outside every build region whose minimum corner is at x = 0 — the build
area does not bound the tree-house builder. -/
theorem tree_house_escapes_build_area :
    ((((-4 : Int), 14, -4), "oak_slab") : Pos × String) ∈
      build_treehouse (((0, 0, 0)) : Pos) 15 10 3 4 "oak_log" constRandOne ∧
    ¬ ((0 : Int) ≤ -4) := by
  constructor
  · unfold build_treehouse
    refine List.mem_append.mpr (Or.inl ?_)
    set_option maxRecDepth 10000 in
    decide
  · decide

/-- C6 (amended): every placeBlock call issued by `clear_area` targets a
column strictly inside the build rect; the tree-house builder instead only
guarantees that its placements stay within platform_radius + 1 blocks of
`starting_pos` in x and z, and (as the roof pass shows) can leave a build
region whose corner is `starting_pos`. -/
theorem scripts_placement_bounds (s : WState) (ox oz sx sz : Int) (sp : Pos)
    (th ph pr hh : Int) (bt : String) (rand : Nat → ℚ) (e1 e2 : Pos × String)
    (he1 : e1 ∈ (clear_area s ox oz sx sz).2)
    (he2 : e2 ∈ build_treehouse sp th ph pr hh bt rand) (hpr : 0 ≤ pr) :
    (ox ≤ e1.1.1 ∧ e1.1.1 < ox + sx ∧ oz ≤ e1.1.2.2 ∧ e1.1.2.2 < oz + sz) ∧
    (sp.1 - (pr + 1) ≤ e2.1.1 ∧ e2.1.1 ≤ sp.1 + (pr + 1) ∧
      sp.2.2 - (pr + 1) ≤ e2.1.2.2 ∧ e2.1.2.2 ≤ sp.2.2 + (pr + 1)) := by
  constructor
  · rcases runColumns_trace_mem _ (clearColumn_own ox oz) _ _ _ _ he1 with
      hnil | ⟨c, hc, y, hy⟩
    · exact absurd hnil (List.not_mem_nil e1)
    · obtain ⟨⟨hx1, hx2⟩, hz1, hz2⟩ := mem_columnList.mp hc
      rw [hy]
      exact ⟨hx1, hx2, hz1, hz2⟩
  · obtain ⟨dx, dy, dz, hEq, hb1, hb2, hb3, hb4⟩ :=
      build_treehouse_offsets sp th ph pr hh bt rand hpr e2 he2
    rw [hEq]
    simp only [Prod.fst_add, Prod.snd_add]
    refine ⟨by omega, by omega, by omega, by omega⟩

theorem scripts_placement_bounds_witness :
    (((((0 : Int), 3, 0), "air") : Pos × String) ∈ (clear_area wsA 0 0 2 2).2 ∧
      ((((0 : Int), 10, 0), "oak_log") : Pos × String) ∈
        build_treehouse (((0, 0, 0)) : Pos) 15 10 3 4 "oak_log" constRandOne ∧
      (0 : Int) ≤ 3) ∧
    (((0 : Int) ≤ 0 ∧ (0 : Int) < 0 + 2 ∧ (0 : Int) ≤ 0 ∧ (0 : Int) < 0 + 2) ∧
      ((0 : Int) - (3 + 1) ≤ 0 ∧ (0 : Int) ≤ 0 + (3 + 1) ∧
        (0 : Int) - (3 + 1) ≤ 0 ∧ (0 : Int) ≤ 0 + (3 + 1))) :=
  have h1 : ((((0 : Int), 3, 0), "air") : Pos × String) ∈ (clear_area wsA 0 0 2 2).2 := by
    set_option maxRecDepth 10000 in
    decide
  have h2 : ((((0 : Int), 10, 0), "oak_log") : Pos × String) ∈
      build_treehouse (((0, 0, 0)) : Pos) 15 10 3 4 "oak_log" constRandOne := by
    unfold build_treehouse
    refine List.mem_append.mpr (Or.inl ?_)
    set_option maxRecDepth 10000 in
    decide
  ⟨⟨h1, h2, by decide⟩,
    scripts_placement_bounds wsA 0 0 2 2 ((0, 0, 0) : Pos) 15 10 3 4 "oak_log"
      constRandOne (((0, 3, 0), "air") : Pos × String)
      ((((0 : Int), 10, 0), "oak_log") : Pos × String) h1 h2 (by decide)⟩
